import Mathlib

/-!
Verification of the moving-average crossover backtester (src/backtester.py)
against its natural-language specification.

The program is a pandas/numpy pipeline over float64 series.  We embed float
cells as the type `Fl α`: a finite value `fin x`, the IEEE quiet NaN `nan`
(pandas' missing-value marker), and the two infinities.  Arithmetic on `Fl`
follows IEEE-754 / numpy semantics (NaN propagates; comparisons with NaN are
false; x/0 is NaN for x = 0 and a signed infinity otherwise), with the finite
payload kept exact (ℚ for the series pipeline, ℝ for the metrics that involve
roots and real powers).  Rounding error is not modelled; none of the verified
claims concerns rounding.
-/

set_option autoImplicit false

namespace Backtest

/-- A float64 cell as pandas sees it: finite, NaN (missing), or infinite. -/
inductive Fl (α : Type) where
  | fin : α → Fl α
  | nan : Fl α
  | inf : Fl α
  | ninf : Fl α
  deriving DecidableEq, Repr

namespace Fl

variable {α : Type} [LinearOrderedField α]

/-- IEEE addition (used for the broadcast `1 + series`). -/
def add : Fl α → Fl α → Fl α
  | fin a, fin b => fin (a + b)
  | nan, _ => nan
  | _, nan => nan
  | inf, ninf => nan
  | ninf, inf => nan
  | inf, _ => inf
  | _, inf => inf
  | ninf, _ => ninf
  | _, ninf => ninf

/-- IEEE subtraction (used for `cumulative - peak`). -/
def sub : Fl α → Fl α → Fl α
  | fin a, fin b => fin (a - b)
  | nan, _ => nan
  | _, nan => nan
  | inf, inf => nan
  | ninf, ninf => nan
  | inf, _ => inf
  | ninf, _ => ninf
  | _, inf => ninf
  | _, ninf => inf

/-- IEEE multiplication (used for `Market Return * Position` and `cumprod`). -/
def mul : Fl α → Fl α → Fl α
  | fin a, fin b => fin (a * b)
  | nan, _ => nan
  | _, nan => nan
  | inf, fin b => if 0 < b then inf else if b < 0 then ninf else nan
  | fin a, inf => if 0 < a then inf else if a < 0 then ninf else nan
  | ninf, fin b => if 0 < b then ninf else if b < 0 then inf else nan
  | fin a, ninf => if 0 < a then ninf else if a < 0 then inf else nan
  | inf, inf => inf
  | ninf, ninf => inf
  | inf, ninf => ninf
  | ninf, inf => ninf

/-- IEEE / numpy division: 0/0 is NaN, x/0 is a signed infinity for x ≠ 0
(numpy emits a warning but no exception and no sign on the zero here). -/
def div : Fl α → Fl α → Fl α
  | nan, _ => nan
  | _, nan => nan
  | fin a, fin b =>
      if b = 0 then (if a = 0 then nan else if 0 < a then inf else ninf)
      else fin (a / b)
  | inf, fin b => if 0 ≤ b then inf else ninf
  | ninf, fin b => if 0 ≤ b then ninf else inf
  | fin _, inf => fin 0
  | fin _, ninf => fin 0
  | inf, _ => nan
  | ninf, _ => nan

/-- IEEE strict less-than: any comparison involving NaN is false. -/
def ltb : Fl α → Fl α → Bool
  | fin a, fin b => decide (a < b)
  | nan, _ => false
  | _, nan => false
  | inf, _ => false
  | _, inf => true
  | ninf, ninf => false
  | ninf, _ => true
  | _, ninf => false

/-- IEEE non-strict less-than-or-equal: false whenever NaN is involved. -/
def leb : Fl α → Fl α → Bool
  | fin a, fin b => decide (a ≤ b)
  | nan, _ => false
  | _, nan => false
  | inf, inf => true
  | inf, _ => false
  | _, inf => true
  | ninf, _ => true
  | _, ninf => false

/-- Binary maximum over non-NaN floats, as used by `cummax` (NaN inputs are
skipped by the caller; for totality NaN acts as an identity here). -/
def maxF : Fl α → Fl α → Fl α
  | nan, x => x
  | x, nan => x
  | fin a, fin b => fin (max a b)
  | inf, _ => inf
  | _, inf => inf
  | ninf, x => x
  | x, ninf => x

/-- Binary minimum over non-NaN floats, as used by `Series.min` (NaN inputs
are skipped by the caller; for totality NaN acts as an identity here). -/
def minF : Fl α → Fl α → Fl α
  | nan, x => x
  | x, nan => x
  | fin a, fin b => fin (min a b)
  | ninf, _ => ninf
  | _, ninf => ninf
  | inf, x => x
  | x, inf => x

/-- Is this cell a finite (defined) value? -/
def isFin : Fl α → Bool
  | fin _ => true
  | _ => false

/-- A cell that is either finite or NaN (no infinity): the shape of every
cell a well-formed return series can contain. -/
def finOrNan : Fl α → Prop
  | inf => False
  | ninf => False
  | _ => True

end Fl

section ListOps

variable {α : Type} [LinearOrderedField α]

/-- pandas `Series.cumprod()` with the default `skipna=True`: NaN entries stay
NaN in the output and are skipped by the running product. -/
def cumprodSkipna (acc : Fl α) : List (Fl α) → List (Fl α)
  | [] => []
  | Fl.nan :: xs => Fl.nan :: cumprodSkipna acc xs
  | x :: xs => Fl.mul acc x :: cumprodSkipna (Fl.mul acc x) xs

/-- pandas `Series.cummax()` with the default `skipna=True`: NaN entries stay
NaN, the running maximum is taken over the non-NaN entries seen so far. -/
def cummaxSkipna (acc : Option (Fl α)) : List (Fl α) → List (Fl α)
  | [] => []
  | Fl.nan :: xs => Fl.nan :: cummaxSkipna acc xs
  | x :: xs =>
      match acc with
      | none => x :: cummaxSkipna (some x) xs
      | some a => Fl.maxF a x :: cummaxSkipna (some (Fl.maxF a x)) xs

/-- Helper for `minSkipna`: fold the running minimum over non-NaN entries. -/
def minSkipnaGo (acc : Option (Fl α)) : List (Fl α) → Fl α
  | [] => match acc with
          | none => Fl.nan
          | some a => a
  | Fl.nan :: xs => minSkipnaGo acc xs
  | x :: xs =>
      match acc with
      | none => minSkipnaGo (some x) xs
      | some a => minSkipnaGo (some (Fl.minF a x)) xs

/-- pandas `Series.min()` with the default `skipna=True`: the minimum of the
non-NaN entries, or NaN when there is none. -/
def minSkipna (l : List (Fl α)) : Fl α :=
  minSkipnaGo none l

/-- The finite values of a series, in order (what the NaN-skipping
aggregations actually operate on). -/
def finVals : List (Fl α) → List α :=
  List.filterMap (fun x => match x with
    | Fl.fin a => some a
    | _ => none)

end ListOps

/-! ### The pipeline (src/backtester.py, run_backtest steps 2-5)

Input model: the yfinance download (an external collaborator per the spec) is
replaced by its delivered data — the trading-day timestamps `ts : List ℤ`
(calendar day numbers, so that `index[-1] - index[0]` in days is a plain
difference) and the closing prices `closes : List ℚ` (raw float data, always
finite). -/

/-- Step 2: `data['Close'].rolling(window=w).mean()`.  Entry `i` is the mean
of entries `i-w+1 .. i` when at least `w` observations exist (the default
`min_periods` equals the window), NaN otherwise.  pandas rejects `w = 0`;
callers pass positive windows. -/
def rollingMean (w : ℕ) (closes : List ℚ) : List (Fl ℚ) :=
  (List.range closes.length).map (fun i =>
    if w ≤ i + 1 then Fl.fin (((closes.drop (i + 1 - w)).take w).sum / (w : ℚ))
    else Fl.nan)

/-- Step 3 per-cell rule: `Signal` defaults to 0, is set to 1 where
`SMA_short > SMA_long` and to -1 where `SMA_short < SMA_long`.  Comparisons
involving NaN are false, so the default 0 survives wherever either moving
average is undefined, and also on exact ties. -/
def signalCell (s l : Fl ℚ) : ℤ :=
  if Fl.ltb l s then 1 else if Fl.ltb s l then -1 else 0

/-- The `Signal` column (an int64 column: never NaN). -/
def signalList (closes : List ℚ) (shortW longW : ℕ) : List ℤ :=
  List.zipWith signalCell (rollingMean shortW closes) (rollingMean longW closes)

/-- `data['Signal'].shift(1)`: NaN at index 0, the previous signal
elsewhere (the int column becomes a float column). -/
def positionOf (sig : List ℤ) : List (Fl ℚ) :=
  match sig with
  | [] => []
  | _ :: _ => Fl.nan :: sig.dropLast.map (fun (z : ℤ) => Fl.fin (Int.cast z : ℚ))

/-- The `Position` column of the pipeline. -/
def positionList (closes : List ℚ) (shortW longW : ℕ) : List (Fl ℚ) :=
  positionOf (signalList closes shortW longW)

/-- Step 4: `data['Close'].pct_change()`: NaN at index 0, the fractional
change `(p[t] - p[t-1]) / p[t-1]` elsewhere (float division, so a zero
denominator yields NaN or a signed infinity, not an exception). -/
def marketReturn (closes : List ℚ) : List (Fl ℚ) :=
  match closes with
  | [] => []
  | _ :: t =>
      Fl.nan :: List.zipWith
        (fun prev cur => Fl.div (Fl.fin (cur - prev)) (Fl.fin prev)) closes t

/-- `data['Strategy Return'] = data['Market Return'] * data['Position']`
(cell-wise float multiplication; NaN propagates). -/
def strategyReturnList (closes : List ℚ) (shortW longW : ℕ) : List (Fl ℚ) :=
  List.zipWith Fl.mul (marketReturn closes) (positionList closes shortW longW)

/-- `(1 + data['Market Return']).cumprod()`. -/
def cumMarket (closes : List ℚ) : List (Fl ℚ) :=
  cumprodSkipna (Fl.fin 1) ((marketReturn closes).map (Fl.add (Fl.fin 1)))

/-- `(1 + data['Strategy Return']).cumprod()`. -/
def cumStrategy (closes : List ℚ) (shortW longW : ℕ) : List (Fl ℚ) :=
  cumprodSkipna (Fl.fin 1)
    ((strategyReturnList closes shortW longW).map (Fl.add (Fl.fin 1)))

/-- `data['Position'].shift(1)` evaluated at index `t`: NaN at 0, otherwise
the position one row earlier.  (Out-of-range reads cannot occur in the
masks below; `getD nan` is the totalisation.) -/
def prevPosition (pos : List (Fl ℚ)) (t : ℕ) : Fl ℚ :=
  if t = 0 then Fl.nan else pos.getD (t - 1) Fl.nan

/-- Step 5 buy mask at row `t`:
`(data['Position'] == 1) & (data['Position'].shift(1) != 1)`.
pandas `==`/`!=` on floats: NaN == 1 is false and NaN != 1 is true, which is
exactly decidable equality against `fin 1` on `Fl`. -/
def buyMask (pos : List (Fl ℚ)) (t : ℕ) : Bool :=
  (pos.getD t Fl.nan == Fl.fin 1) && !(prevPosition pos t == Fl.fin 1)

/-- Step 5 sell mask at row `t`:
`(data['Position'] == -1) & (data['Position'].shift(1) != -1)`. -/
def sellMask (pos : List (Fl ℚ)) (t : ℕ) : Bool :=
  (pos.getD t Fl.nan == Fl.fin (-1)) && !(prevPosition pos t == Fl.fin (-1))

/-- The row indices selected into `buy_signals`. -/
def buyIndices (pos : List (Fl ℚ)) : List ℕ :=
  (List.range pos.length).filter (buyMask pos)

/-- The row indices selected into `sell_signals`. -/
def sellIndices (pos : List (Fl ℚ)) : List ℕ :=
  (List.range pos.length).filter (sellMask pos)

/-! ### max_drawdown (src/backtester.py lines 72-76) -/

/-- The local `cumulative = (1 + series).cumprod()` inside `max_drawdown`. -/
def mddCumulative (series : List (Fl ℚ)) : List (Fl ℚ) :=
  cumprodSkipna (Fl.fin 1) (series.map (Fl.add (Fl.fin 1)))

/-- The local `peak = cumulative.cummax()` inside `max_drawdown`. -/
def mddPeak (series : List (Fl ℚ)) : List (Fl ℚ) :=
  cummaxSkipna none (mddCumulative series)

/-- The cell-wise `drawdown = (cumulative - peak) / peak`. -/
def ddCell (c p : Fl ℚ) : Fl ℚ :=
  Fl.div (Fl.sub c p) p

/-- The local `drawdown` series inside `max_drawdown`. -/
def mddDrawdown (series : List (Fl ℚ)) : List (Fl ℚ) :=
  List.zipWith ddCell (mddCumulative series) (mddPeak series)

/-- `max_drawdown(series)`: compound (1 + return) from 1, track the running
peak, take (current - peak)/peak pointwise, return the minimum. -/
def maxDrawdown (series : List (Fl ℚ)) : Fl ℚ :=
  minSkipna (mddDrawdown series)

/-! ### Performance metrics (src/backtester.py step 6)

The metric computations mix Python ints and numpy float64:
`days = (data.index[-1] - data.index[0]).days` is a Python int, so
`365.0/days` raises ZeroDivisionError when days = 0 — the one arithmetic
exception the script can hit on non-empty data.  Everything else is numpy
arithmetic, which produces NaN/inf silently.  Finite float values are
embedded in ℝ here because `**` and `sqrt` leave ℚ. -/

/-- `(data.index[-1] - data.index[0]).days` for a non-empty index (the empty
case raises IndexError and is handled in `runBacktest`). -/
def daysOf (ts : List ℤ) : ℤ :=
  ts.getLast?.getD 0 - ts.headD 0

/-- Cast the exact-payload cells from the ℚ pipeline into the ℝ metric
world. -/
def flToR : Fl ℚ → Fl ℝ
  | Fl.fin q => Fl.fin (q : ℝ)
  | Fl.nan => Fl.nan
  | Fl.inf => Fl.inf
  | Fl.ninf => Fl.ninf

/-- The sample variance (ddof = 1) underlying pandas `Series.std()`: taken
over the non-NaN entries, NaN when fewer than two of them exist (and for any
infinite entry, which numpy turns into NaN). -/
def sampleVar (l : List (Fl ℚ)) : Fl ℚ :=
  if Fl.inf ∈ l ∨ Fl.ninf ∈ l then Fl.nan
  else
    if (finVals l).length < 2 then Fl.nan
    else
      Fl.fin
        (((finVals l).map
            (fun x => (x - (finVals l).sum / ((finVals l).length : ℚ)) ^ 2)).sum
          / (((finVals l).length : ℚ) - 1))

/-- The square root applied to a float value (pandas `Series.std()` is the
square root of the ddof-1 sample variance; numpy sqrt of a negative number
is NaN, of NaN is NaN). -/
noncomputable def flSqrt : Fl ℚ → Fl ℝ
  | Fl.fin q => if q < 0 then Fl.nan else Fl.fin (Real.sqrt (q : ℝ))
  | Fl.nan => Fl.nan
  | Fl.inf => Fl.inf
  | Fl.ninf => Fl.nan

/-- `returns.std() * np.sqrt(252)`: annualized volatility. -/
noncomputable def volOf (returns : List (Fl ℚ)) : Fl ℝ :=
  Fl.mul (flSqrt (sampleVar returns)) (Fl.fin (Real.sqrt 252))

/-- numpy float64 `base ** e`: for positive finite base this is the real
power; 0 ** e is 1, 0 or inf by the sign of e; a negative base gives the
real power for integral exponents and NaN otherwise (numpy, unlike Python,
does not go complex).  NaN ** 0 is 1; otherwise NaN propagates.  The
negative-infinity base cases (unreachable in this program, whose bases are
cumulative products ending at index ≥ 1) are collapsed to NaN. -/
noncomputable def rpowF : Fl ℝ → ℝ → Fl ℝ
  | Fl.fin b, e =>
      if b < 0 then (if (⌊e⌋ : ℝ) = e then Fl.fin (b ^ e) else Fl.nan)
      else if b = 0 then
        (if e = 0 then Fl.fin 1 else if 0 < e then Fl.fin 0 else Fl.inf)
      else Fl.fin (b ^ e)
  | Fl.nan, e => if e = 0 then Fl.fin 1 else Fl.nan
  | Fl.inf, e => if e = 0 then Fl.fin 1 else if 0 < e then Fl.inf else Fl.fin 0
  | Fl.ninf, e => if e = 0 then Fl.fin 1 else Fl.nan

/-- `cumulative.iloc[-1] ** (365.0/days) - 1`.  Only evaluated under the
`days ≠ 0` guard of `runBacktest` (365.0/days raises first otherwise), so
the ℝ-division junk value at days = 0 is never exposed. -/
noncomputable def cagrOf (cumFinal : Fl ℚ) (days : ℤ) : Fl ℝ :=
  Fl.sub (rpowF (flToR cumFinal) ((365 : ℝ) / (days : ℝ))) (Fl.fin 1)

/-- The scalar performance numbers the script computes (step 6), before any
formatting.  Drawdowns stay in the exact ℚ world (no roots or powers). -/
structure Metrics where
  cagrMarket : Fl ℝ
  cagrStrategy : Fl ℝ
  volMarket : Fl ℝ
  volStrategy : Fl ℝ
  sharpeMarket : Fl ℝ
  sharpeStrategy : Fl ℝ
  maxDDMarket : Fl ℚ
  maxDDStrategy : Fl ℚ

/-- Step 6 in full: CAGR, annualized volatility, Sharpe = CAGR / volatility
(numpy division: no exception, NaN/inf on a zero or NaN denominator), and
max drawdown, each computed identically for market and strategy. -/
noncomputable def computeMetrics (ts : List ℤ) (closes : List ℚ)
    (shortW longW : ℕ) : Metrics :=
  let d := daysOf ts
  let cagrM := cagrOf ((cumMarket closes).getLastD Fl.nan) d
  let cagrS := cagrOf ((cumStrategy closes shortW longW).getLastD Fl.nan) d
  let volM := volOf (marketReturn closes)
  let volS := volOf (strategyReturnList closes shortW longW)
  { cagrMarket := cagrM
    cagrStrategy := cagrS
    volMarket := volM
    volStrategy := volS
    sharpeMarket := Fl.div cagrM volM
    sharpeStrategy := Fl.div cagrS volS
    maxDDMarket := maxDrawdown (marketReturn closes)
    maxDDStrategy := maxDrawdown (strategyReturnList closes shortW longW) }

/-! ### The run itself (what run_backtest delivers to its caller) -/

/-- Modelled from the spec: the record the core invocation signature in §6
says `run` should return — `{signals, positions, returns, cumulative,
metrics, events}`.  The script never constructs such a value; the type
exists so that "returns a record" is a statable property. -/
structure SpecRunRecord where
  signals : List ℤ
  positions : List (Fl ℚ)
  marketReturns : List (Fl ℚ)
  strategyReturns : List (Fl ℚ)
  cumulativeMarket : List (Fl ℚ)
  cumulativeStrategy : List (Fl ℚ)
  metrics : Metrics
  buyEvents : List ℕ
  sellEvents : List ℕ

/-- One printed metric line, with the f-string conversion that produced it:
`pct x` is an `f"{x:.2%}"` percentage rendering, `dec x` an `f"{x:.2f}"`
two-decimal rendering. -/
inductive Fmt where
  | pct : Fl ℝ → Fmt
  | dec : Fl ℝ → Fmt

/-- The observable outcome of a completed `run_backtest` call: the Python
return value (the function body has no return statement, hence `None`), and
the metric lines printed to the console (lines 86-93), in order. -/
structure RunOutput where
  returned : Option SpecRunRecord
  printedMetrics : List Fmt

/-- The whole of `run_backtest` after the data download, as the caller sees
it: an uncaught exception (`Except.error ()`: IndexError at
`data.index[-1]` on an empty frame, ZeroDivisionError at `365.0/days` when
the first and last timestamps coincide) or normal completion.  No input
validation of any kind precedes the pipeline. -/
noncomputable def runBacktest (ts : List ℤ) (closes : List ℚ)
    (shortW longW : ℕ) : Except Unit RunOutput :=
  if ts.isEmpty then Except.error ()
  else if daysOf ts = 0 then Except.error ()
  else
    let m := computeMetrics ts closes shortW longW
    Except.ok
      { returned := none
        printedMetrics :=
          [Fmt.pct m.cagrMarket, Fmt.pct m.cagrStrategy,
           Fmt.dec m.sharpeMarket, Fmt.dec m.sharpeStrategy,
           Fmt.pct (flToR m.maxDDMarket), Fmt.pct (flToR m.maxDDStrategy)] }

/-! ### List-level helper lemmas -/

theorem getElem?_zipWith {α β γ : Type} (f : α → β → γ) (l1 : List α)
    (l2 : List β) (i : ℕ) (a : α) (b : β) (h1 : l1[i]? = some a)
    (h2 : l2[i]? = some b) : (List.zipWith f l1 l2)[i]? = some (f a b) := by
  induction l1 generalizing l2 i with
  | nil => simp at h1
  | cons x xs ih =>
    cases l2 with
    | nil => simp at h2
    | cons y ys =>
      cases i with
      | zero => simp_all
      | succ j =>
        simp only [List.zipWith_cons_cons, List.getElem?_cons_succ] at *
        exact ih ys j h1 h2

theorem rollingMean_length (w : ℕ) (closes : List ℚ) :
    (rollingMean w closes).length = closes.length := by
  simp [rollingMean]

theorem rollingMean_getElem? (w : ℕ) (closes : List ℚ) (i : ℕ)
    (hi : i < closes.length) :
    (rollingMean w closes)[i]? =
      some (if w ≤ i + 1
            then Fl.fin (((closes.drop (i + 1 - w)).take w).sum / (w : ℚ))
            else Fl.nan) := by
  simp [rollingMean, List.getElem?_map, List.getElem?_range, hi]

theorem signalList_length (closes : List ℚ) (s l : ℕ) :
    (signalList closes s l).length = closes.length := by
  simp [signalList, rollingMean_length]

theorem positionOf_length (sig : List ℤ) : (positionOf sig).length = sig.length := by
  cases sig with
  | nil => rfl
  | cons z zs =>
    rw [positionOf, List.length_cons, List.length_map, List.length_dropLast,
      List.length_cons]
    omega

theorem positionList_length (closes : List ℚ) (s l : ℕ) :
    (positionList closes s l).length = closes.length := by
  rw [positionList, positionOf_length, signalList_length]

theorem positionList_getElem?_zero (closes : List ℚ) (s l : ℕ)
    (h0 : 0 < closes.length) : (positionList closes s l)[0]? = some Fl.nan := by
  rw [positionList]
  have hlen : (signalList closes s l).length = closes.length :=
    signalList_length closes s l
  cases h : signalList closes s l with
  | nil => rw [h] at hlen; simp [← hlen] at h0
  | cons z zs => simp [positionOf]

theorem positionList_getElem?_succ (closes : List ℚ) (s l : ℕ) (t : ℕ)
    (ht : t + 1 < closes.length) :
    ∃ z : ℤ, (signalList closes s l)[t]? = some z ∧
      (positionList closes s l)[t + 1]? = some (Fl.fin (z : ℚ)) := by
  have hlen : (signalList closes s l).length = closes.length :=
    signalList_length closes s l
  rw [positionList]
  cases h : signalList closes s l with
  | nil =>
    rw [h] at hlen
    simp at hlen
    omega
  | cons z zs =>
    have hlt : t < (signalList closes s l).length - 1 := by omega
    rw [h] at hlt
    have h1 : t < (z :: zs).dropLast.length := by
      simpa [List.length_dropLast] using hlt
    have h2 : (z :: zs).dropLast[t]? = (z :: zs)[t]? := by
      rw [List.dropLast_eq_take, List.getElem?_take_of_lt]
      simpa [List.length_dropLast] using h1
    have hw : (z :: zs).dropLast[t]? = some ((z :: zs).dropLast.get ⟨t, h1⟩) :=
      List.getElem?_eq_getElem h1
    refine ⟨(z :: zs).dropLast.get ⟨t, h1⟩, by rw [← h2, hw], ?_⟩
    simp only [positionOf, List.getElem?_cons_succ, List.getElem?_map, hw,
      Option.map_some']

section FoldEquations

variable {α : Type} [LinearOrderedField α]

theorem cumprodSkipna_nil (acc : Fl α) : cumprodSkipna acc [] = [] := rfl

theorem cumprodSkipna_cons_nan (acc : Fl α) (xs : List (Fl α)) :
    cumprodSkipna acc (Fl.nan :: xs) = Fl.nan :: cumprodSkipna acc xs := rfl

theorem cumprodSkipna_cons_fin (acc : Fl α) (v : α) (xs : List (Fl α)) :
    cumprodSkipna acc (Fl.fin v :: xs) =
      Fl.mul acc (Fl.fin v) :: cumprodSkipna (Fl.mul acc (Fl.fin v)) xs := rfl

theorem cummaxSkipna_nil (acc : Option (Fl α)) : cummaxSkipna acc [] = [] := rfl

theorem cummaxSkipna_cons_nan (acc : Option (Fl α)) (xs : List (Fl α)) :
    cummaxSkipna acc (Fl.nan :: xs) = Fl.nan :: cummaxSkipna acc xs := rfl

theorem cummaxSkipna_cons_fin_none (v : α) (xs : List (Fl α)) :
    cummaxSkipna none (Fl.fin v :: xs) =
      Fl.fin v :: cummaxSkipna (some (Fl.fin v)) xs := rfl

theorem cummaxSkipna_cons_fin_some (a : Fl α) (v : α) (xs : List (Fl α)) :
    cummaxSkipna (some a) (Fl.fin v :: xs) =
      Fl.maxF a (Fl.fin v) :: cummaxSkipna (some (Fl.maxF a (Fl.fin v))) xs := rfl

theorem minSkipnaGo_nil_none : minSkipnaGo (none : Option (Fl α)) [] = Fl.nan := rfl

theorem minSkipnaGo_nil_some (a : Fl α) : minSkipnaGo (some a) [] = a := rfl

theorem minSkipnaGo_cons_nan (acc : Option (Fl α)) (xs : List (Fl α)) :
    minSkipnaGo acc (Fl.nan :: xs) = minSkipnaGo acc xs := rfl

theorem minSkipnaGo_cons_fin_none (v : α) (xs : List (Fl α)) :
    minSkipnaGo none (Fl.fin v :: xs) = minSkipnaGo (some (Fl.fin v)) xs := rfl

theorem minSkipnaGo_cons_fin_some (a : Fl α) (v : α) (xs : List (Fl α)) :
    minSkipnaGo (some a) (Fl.fin v :: xs) =
      minSkipnaGo (some (Fl.minF a (Fl.fin v))) xs := rfl

end FoldEquations

section MinSkipnaSpec

variable {α : Type} [LinearOrderedField α]

theorem minSkipnaGo_cons_inf_none (xs : List (Fl α)) :
    minSkipnaGo none (Fl.inf :: xs) = minSkipnaGo (some Fl.inf) xs := rfl

theorem minSkipnaGo_cons_inf_some (a : Fl α) (xs : List (Fl α)) :
    minSkipnaGo (some a) (Fl.inf :: xs) =
      minSkipnaGo (some (Fl.minF a Fl.inf)) xs := rfl

theorem minSkipnaGo_cons_ninf_none (xs : List (Fl α)) :
    minSkipnaGo none (Fl.ninf :: xs) = minSkipnaGo (some Fl.ninf) xs := rfl

theorem minSkipnaGo_cons_ninf_some (a : Fl α) (xs : List (Fl α)) :
    minSkipnaGo (some a) (Fl.ninf :: xs) =
      minSkipnaGo (some (Fl.minF a Fl.ninf)) xs := rfl

theorem minSkipnaGo_ninf (l : List (Fl α)) :
    minSkipnaGo (some Fl.ninf) l = Fl.ninf := by
  induction l with
  | nil => rfl
  | cons x xs ih =>
    cases x with
    | nan => rw [minSkipnaGo_cons_nan]; exact ih
    | fin v => rw [minSkipnaGo_cons_fin_some]; exact ih
    | inf => rw [minSkipnaGo_cons_inf_some]; exact ih
    | ninf => rw [minSkipnaGo_cons_ninf_some]; exact ih

/-- What a finite result of the NaN-skipping minimum means: it is one of
the inspected values (or the seed) and a lower bound on every finite entry
of the list (and on a finite seed). -/
theorem minSkipnaGo_fin_spec (l : List (Fl α)) :
    ∀ (acc : Option (Fl α)) (v : α), minSkipnaGo acc l = Fl.fin v →
      (Fl.fin v ∈ l ∨ acc = some (Fl.fin v)) ∧
      (∀ a : α, Fl.fin a ∈ l → v ≤ a) ∧
      (∀ b : α, acc = some (Fl.fin b) → v ≤ b) := by
  induction l with
  | nil =>
    intro acc v h
    cases acc with
    | none => rw [minSkipnaGo_nil_none] at h; exact absurd h (by simp)
    | some a =>
      rw [minSkipnaGo_nil_some] at h
      subst h
      refine ⟨Or.inr rfl, by simp, fun b hb => ?_⟩
      rw [Option.some.injEq, Fl.fin.injEq] at hb
      exact le_of_eq hb
  | cons x xs ih =>
    intro acc v h
    cases x with
    | nan =>
      rw [minSkipnaGo_cons_nan] at h
      obtain ⟨hmem, hbound, hacc⟩ := ih acc v h
      refine ⟨?_, ?_, hacc⟩
      · rcases hmem with hm | hm
        · exact Or.inl (List.mem_cons_of_mem _ hm)
        · exact Or.inr hm
      · intro a ha
        rcases List.mem_cons.mp ha with ha | ha
        · exact absurd ha.symm (by simp)
        · exact hbound a ha
    | fin w =>
      cases acc with
      | none =>
        rw [minSkipnaGo_cons_fin_none] at h
        obtain ⟨hmem, hbound, hacc⟩ := ih (some (Fl.fin w)) v h
        have hvw : v ≤ w := hacc w rfl
        refine ⟨?_, ?_, by simp⟩
        · rcases hmem with hm | hm
          · exact Or.inl (List.mem_cons_of_mem _ hm)
          · rw [Option.some.injEq] at hm
            exact Or.inl (by rw [← hm]; exact List.mem_cons_self _ _)
        · intro a ha
          rcases List.mem_cons.mp ha with ha | ha
          · rw [Fl.fin.injEq] at ha
            rw [ha]
            exact hvw
          · exact hbound a ha
      | some m =>
        cases m with
        | fin b =>
          rw [minSkipnaGo_cons_fin_some] at h
          have hminF : Fl.minF (Fl.fin b) (Fl.fin w) = Fl.fin (min b w) := rfl
          rw [hminF] at h
          obtain ⟨hmem, hbound, hacc⟩ := ih (some (Fl.fin (min b w))) v h
          have hvmin : v ≤ min b w := hacc (min b w) rfl
          refine ⟨?_, ?_, ?_⟩
          · rcases hmem with hm | hm
            · exact Or.inl (List.mem_cons_of_mem _ hm)
            · rw [Option.some.injEq, Fl.fin.injEq] at hm
              rcases le_total b w with hbw | hbw
              · rw [min_eq_left hbw] at hm
                exact Or.inr (by rw [hm])
              · rw [min_eq_right hbw] at hm
                exact Or.inl (by rw [← hm]; exact List.mem_cons_self _ _)
          · intro a ha
            rcases List.mem_cons.mp ha with ha | ha
            · rw [Fl.fin.injEq] at ha
              rw [ha]
              exact hvmin.trans (min_le_right b w)
            · exact hbound a ha
          · intro b' hb'
            rw [Option.some.injEq, Fl.fin.injEq] at hb'
            rw [← hb']
            exact hvmin.trans (min_le_left b w)
        | nan =>
          rw [minSkipnaGo_cons_fin_some] at h
          have hminF : Fl.minF Fl.nan (Fl.fin w) = Fl.fin w := rfl
          rw [hminF] at h
          obtain ⟨hmem, hbound, hacc⟩ := ih (some (Fl.fin w)) v h
          have hvw : v ≤ w := hacc w rfl
          refine ⟨?_, ?_, by simp⟩
          · rcases hmem with hm | hm
            · exact Or.inl (List.mem_cons_of_mem _ hm)
            · rw [Option.some.injEq] at hm
              exact Or.inl (by rw [← hm]; exact List.mem_cons_self _ _)
          · intro a ha
            rcases List.mem_cons.mp ha with ha | ha
            · rw [Fl.fin.injEq] at ha
              rw [ha]
              exact hvw
            · exact hbound a ha
        | inf =>
          rw [minSkipnaGo_cons_fin_some] at h
          have hminF : Fl.minF Fl.inf (Fl.fin w) = Fl.fin w := rfl
          rw [hminF] at h
          obtain ⟨hmem, hbound, hacc⟩ := ih (some (Fl.fin w)) v h
          have hvw : v ≤ w := hacc w rfl
          refine ⟨?_, ?_, by simp⟩
          · rcases hmem with hm | hm
            · exact Or.inl (List.mem_cons_of_mem _ hm)
            · rw [Option.some.injEq] at hm
              exact Or.inl (by rw [← hm]; exact List.mem_cons_self _ _)
          · intro a ha
            rcases List.mem_cons.mp ha with ha | ha
            · rw [Fl.fin.injEq] at ha
              rw [ha]
              exact hvw
            · exact hbound a ha
        | ninf =>
          rw [minSkipnaGo_cons_fin_some] at h
          have hminF : Fl.minF Fl.ninf (Fl.fin w) = Fl.ninf := rfl
          rw [hminF, minSkipnaGo_ninf] at h
          exact absurd h (by simp)
    | inf =>
      cases acc with
      | none =>
        rw [minSkipnaGo_cons_inf_none] at h
        obtain ⟨hmem, hbound, hacc⟩ := ih (some Fl.inf) v h
        refine ⟨?_, ?_, by simp⟩
        · rcases hmem with hm | hm
          · exact Or.inl (List.mem_cons_of_mem _ hm)
          · exact absurd hm (by simp)
        · intro a ha
          rcases List.mem_cons.mp ha with ha | ha
          · exact absurd ha.symm (by simp)
          · exact hbound a ha
      | some m =>
        rw [minSkipnaGo_cons_inf_some] at h
        cases m with
        | nan =>
          have hminF : Fl.minF (Fl.nan : Fl α) Fl.inf = Fl.inf := rfl
          rw [hminF] at h
          obtain ⟨hmem, hbound, -⟩ := ih (some Fl.inf) v h
          refine ⟨?_, ?_, by simp⟩
          · rcases hmem with hm | hm
            · exact Or.inl (List.mem_cons_of_mem _ hm)
            · exact absurd hm (by simp)
          · intro a ha
            rcases List.mem_cons.mp ha with ha | ha
            · exact absurd ha.symm (by simp)
            · exact hbound a ha
        | fin b =>
          have hminF : Fl.minF (Fl.fin b) Fl.inf = Fl.fin b := rfl
          rw [hminF] at h
          obtain ⟨hmem, hbound, hacc⟩ := ih (some (Fl.fin b)) v h
          refine ⟨?_, ?_, hacc⟩
          · rcases hmem with hm | hm
            · exact Or.inl (List.mem_cons_of_mem _ hm)
            · exact Or.inr hm
          · intro a ha
            rcases List.mem_cons.mp ha with ha | ha
            · exact absurd ha.symm (by simp)
            · exact hbound a ha
        | inf =>
          have hminF : Fl.minF (Fl.inf : Fl α) Fl.inf = Fl.inf := rfl
          rw [hminF] at h
          obtain ⟨hmem, hbound, -⟩ := ih (some Fl.inf) v h
          refine ⟨?_, ?_, by simp⟩
          · rcases hmem with hm | hm
            · exact Or.inl (List.mem_cons_of_mem _ hm)
            · exact absurd hm (by simp)
          · intro a ha
            rcases List.mem_cons.mp ha with ha | ha
            · exact absurd ha.symm (by simp)
            · exact hbound a ha
        | ninf =>
          have hminF : Fl.minF (Fl.ninf : Fl α) Fl.inf = Fl.ninf := rfl
          rw [hminF, minSkipnaGo_ninf] at h
          exact absurd h (by simp)
    | ninf =>
      cases acc with
      | none =>
        rw [minSkipnaGo_cons_ninf_none, minSkipnaGo_ninf] at h
        exact absurd h (by simp)
      | some m =>
        rw [minSkipnaGo_cons_ninf_some] at h
        have hminF : Fl.minF m Fl.ninf = Fl.ninf := by
          cases m <;> rfl
        rw [hminF, minSkipnaGo_ninf] at h
        exact absurd h (by simp)

/-- A finite NaN-skipping minimum is a member of the list and a lower bound
on its finite entries. -/
theorem minSkipna_fin_spec (l : List (Fl α)) (v : α)
    (h : minSkipna l = Fl.fin v) :
    Fl.fin v ∈ l ∧ ∀ a : α, Fl.fin a ∈ l → v ≤ a := by
  obtain ⟨hmem, hbound, -⟩ := minSkipnaGo_fin_spec l none v h
  rcases hmem with hm | hm
  · exact ⟨hm, hbound⟩
  · exact absurd hm (by simp)

end MinSkipnaSpec

theorem Fl.div_fin_of_ne {α : Type} [LinearOrderedField α] (a b : α)
    (hb : b ≠ 0) : Fl.div (Fl.fin a) (Fl.fin b) = Fl.fin (a / b) := by
  rw [Fl.div, if_neg hb]

/-! ### Drawdown lemmas -/

theorem add_one_finOrNan (x : Fl ℚ) (h : Fl.finOrNan x) :
    Fl.finOrNan (Fl.add (Fl.fin 1) x) := by
  cases x with
  | fin v => trivial
  | nan => trivial
  | inf => exact absurd h (by simp [Fl.finOrNan])
  | ninf => exact absurd h (by simp [Fl.finOrNan])

theorem cumprodSkipna_finOrNan (l : List (Fl ℚ))
    (hl : ∀ x ∈ l, Fl.finOrNan x) :
    ∀ (c : ℚ), ∀ x ∈ cumprodSkipna (Fl.fin c) l, Fl.finOrNan x := by
  induction l with
  | nil => intro c x hx; simp [cumprodSkipna_nil] at hx
  | cons y ys ih =>
    intro c x hx
    have hys : ∀ x ∈ ys, Fl.finOrNan x := fun a ha =>
      hl a (List.mem_cons_of_mem _ ha)
    cases y with
    | fin v =>
      rw [cumprodSkipna_cons_fin] at hx
      rcases List.mem_cons.mp hx with hx | hx
      · rw [hx]; trivial
      · exact ih hys (c * v) x hx
    | nan =>
      rw [cumprodSkipna_cons_nan] at hx
      rcases List.mem_cons.mp hx with hx | hx
      · rw [hx]; trivial
      · exact ih hys c x hx
    | inf => exact absurd (hl Fl.inf (List.mem_cons_self _ _)) (by simp [Fl.finOrNan])
    | ninf => exact absurd (hl Fl.ninf (List.mem_cons_self _ _)) (by simp [Fl.finOrNan])

/-- Once the running product has hit exactly zero, every further drawdown
entry is NaN: the cumulative value and the running peak are both zero, and
float 0/0 is NaN. -/
theorem dd_zero_state (u : List (Fl ℚ)) (hu : ∀ x ∈ u, Fl.finOrNan x) :
    ∀ (z m : ℚ), z = 0 → m = 0 →
      ∀ x ∈ List.zipWith ddCell (cumprodSkipna (Fl.fin z) u)
          (cummaxSkipna (some (Fl.fin m)) (cumprodSkipna (Fl.fin z) u)),
        x = Fl.nan := by
  induction u with
  | nil => intro z m hz hm x hx; simp [cumprodSkipna_nil] at hx
  | cons y ys ih =>
    intro z m hz hm x hx
    have hys : ∀ x ∈ ys, Fl.finOrNan x := fun a ha =>
      hu a (List.mem_cons_of_mem _ ha)
    cases y with
    | nan =>
      rw [cumprodSkipna_cons_nan, cummaxSkipna_cons_nan,
        List.zipWith_cons_cons] at hx
      rcases List.mem_cons.mp hx with hx | hx
      · rw [hx]; rfl
      · exact ih hys z m hz hm x hx
    | fin b =>
      rw [cumprodSkipna_cons_fin] at hx
      have hmul : Fl.mul (Fl.fin z) (Fl.fin b) = Fl.fin (z * b) := rfl
      rw [hmul, cummaxSkipna_cons_fin_some] at hx
      have hmax : Fl.maxF (Fl.fin m) (Fl.fin (z * b)) =
          Fl.fin (max m (z * b)) := rfl
      rw [hmax, List.zipWith_cons_cons] at hx
      rcases List.mem_cons.mp hx with hx | hx
      · rw [hx, ddCell]
        subst hz; subst hm
        have hzb : (0 : ℚ) * b = 0 := zero_mul b
        rw [hzb, max_self]
        have hsub : Fl.sub (Fl.fin (0 : ℚ)) (Fl.fin 0) = Fl.fin 0 := by
          show Fl.fin ((0 : ℚ) - 0) = Fl.fin 0
          norm_num
        rw [hsub]
        show (if (0 : ℚ) = 0 then (if (0 : ℚ) = 0 then Fl.nan
          else if 0 < (0 : ℚ) then Fl.inf else Fl.ninf)
          else Fl.fin ((0 : ℚ) / 0)) = Fl.nan
        norm_num
      · exact ih hys (z * b) (max m (z * b))
          (by rw [hz, zero_mul]) (by rw [hm, hz, zero_mul, max_self]) x hx
    | inf => exact absurd (hu Fl.inf (List.mem_cons_self _ _)) (by simp [Fl.finOrNan])
    | ninf => exact absurd (hu Fl.ninf (List.mem_cons_self _ _)) (by simp [Fl.finOrNan])

/-- If the drawdown series (computed from the initial state: product seed 1,
no peak yet) contains any finite entry, then it contains the entry 0: the
first compounded value coincides with the first peak, so the first defined
drawdown is (c-c)/c = 0 — unless that first value is exactly 0, in which
case every drawdown entry is NaN and no finite entry exists at all. -/
theorem dd_first_fin_zero (u : List (Fl ℚ)) (hu : ∀ x ∈ u, Fl.finOrNan x)
    (hex : ∃ a : ℚ, Fl.fin a ∈ List.zipWith ddCell (cumprodSkipna (Fl.fin 1) u)
        (cummaxSkipna none (cumprodSkipna (Fl.fin 1) u))) :
    Fl.fin 0 ∈ List.zipWith ddCell (cumprodSkipna (Fl.fin 1) u)
        (cummaxSkipna none (cumprodSkipna (Fl.fin 1) u)) := by
  induction u with
  | nil =>
    obtain ⟨a, ha⟩ := hex
    simp [cumprodSkipna_nil] at ha
  | cons y ys ih =>
    have hys : ∀ x ∈ ys, Fl.finOrNan x := fun a ha =>
      hu a (List.mem_cons_of_mem _ ha)
    cases y with
    | nan =>
      rw [cumprodSkipna_cons_nan, cummaxSkipna_cons_nan,
        List.zipWith_cons_cons] at hex ⊢
      obtain ⟨a, ha⟩ := hex
      rcases List.mem_cons.mp ha with ha | ha
      · exact absurd ha.symm (by simp [ddCell, Fl.sub, Fl.div])
      · exact List.mem_cons_of_mem _ (ih hys ⟨a, ha⟩)
    | fin b =>
      rw [cumprodSkipna_cons_fin] at hex ⊢
      have hmul : Fl.mul (Fl.fin (1 : ℚ)) (Fl.fin b) = Fl.fin (1 * b) := rfl
      rw [hmul, cummaxSkipna_cons_fin_none, List.zipWith_cons_cons] at hex ⊢
      by_cases hb : (1 : ℚ) * b = 0
      · obtain ⟨a, ha⟩ := hex
        rcases List.mem_cons.mp ha with ha | ha
        · rw [ddCell] at ha
          have hsub : Fl.sub (Fl.fin ((1 : ℚ) * b)) (Fl.fin (1 * b)) =
              Fl.fin 0 := by
            show Fl.fin ((1 : ℚ) * b - 1 * b) = Fl.fin 0
            norm_num
          rw [hsub, hb] at ha
          have : Fl.div (Fl.fin (0 : ℚ)) (Fl.fin 0) = Fl.nan := by
            show (if (0 : ℚ) = 0 then (if (0 : ℚ) = 0 then Fl.nan
              else if 0 < (0 : ℚ) then Fl.inf else Fl.ninf)
              else Fl.fin ((0 : ℚ) / 0)) = Fl.nan
            norm_num
          rw [this] at ha
          exact absurd ha.symm (by simp)
        · have hall := dd_zero_state ys hys (1 * b) (1 * b) hb hb
          exact absurd (hall (Fl.fin a) ha) (by simp)
      · have hdd : ddCell (Fl.fin ((1 : ℚ) * b)) (Fl.fin (1 * b)) =
            Fl.fin 0 := by
          rw [ddCell]
          have hsub : Fl.sub (Fl.fin ((1 : ℚ) * b)) (Fl.fin (1 * b)) =
              Fl.fin 0 := by
            show Fl.fin ((1 : ℚ) * b - 1 * b) = Fl.fin 0
            norm_num
          rw [hsub, Fl.div_fin_of_ne _ _ hb, zero_div]
        rw [hdd]
        exact List.mem_cons_self _ _
    | inf => exact absurd (hu Fl.inf (List.mem_cons_self _ _)) (by simp [Fl.finOrNan])
    | ninf => exact absurd (hu Fl.ninf (List.mem_cons_self _ _)) (by simp [Fl.finOrNan])

/-- When the (finite-or-NaN) input list is already non-decreasing on its
finite entries and the seed is a lower bound, the skipna running maximum
returns the list unchanged. -/
theorem cummax_monotone_eq (cum : List (Fl ℚ)) :
    (∀ x ∈ cum, Fl.finOrNan x) →
    List.Pairwise (fun x y => ∀ a b : ℚ, x = Fl.fin a → y = Fl.fin b → a ≤ b)
      cum →
    ∀ macc : Option (Fl ℚ),
      (macc = none ∨ ∃ m : ℚ, macc = some (Fl.fin m) ∧
        ∀ x ∈ cum, ∀ a : ℚ, x = Fl.fin a → m ≤ a) →
      cummaxSkipna macc cum = cum := by
  induction cum with
  | nil =>
    intro _ _ macc _
    cases macc with
    | none => rfl
    | some a => rfl
  | cons x xs ih =>
    intro hfn hmono macc hcompat
    obtain ⟨hhead, htail⟩ := List.pairwise_cons.mp hmono
    have hxs : ∀ y ∈ xs, Fl.finOrNan y := fun a ha =>
      hfn a (List.mem_cons_of_mem _ ha)
    cases x with
    | nan =>
      have htl : cummaxSkipna macc xs = xs := by
        apply ih hxs htail macc
        rcases hcompat with hc | ⟨m, hm, hb⟩
        · exact Or.inl hc
        · exact Or.inr ⟨m, hm, fun y hy => hb y (List.mem_cons_of_mem _ hy)⟩
      rw [cummaxSkipna_cons_nan, htl]
    | fin a =>
      have hrest : cummaxSkipna (some (Fl.fin a)) xs = xs := by
        apply ih hxs htail (some (Fl.fin a))
        exact Or.inr ⟨a, rfl, fun y hy b hyb => hhead y hy a b rfl hyb⟩
      rcases hcompat with hc | ⟨m, hm, hb⟩
      · rw [hc, cummaxSkipna_cons_fin_none, hrest]
      · rw [hm, cummaxSkipna_cons_fin_some]
        have hma : m ≤ a := hb (Fl.fin a) (List.mem_cons_self _ _) a rfl
        have hmax : Fl.maxF (Fl.fin m) (Fl.fin a) = Fl.fin a := by
          show Fl.fin (max m a) = Fl.fin a
          rw [max_eq_right hma]
        rw [hmax, hrest]
    | inf => exact absurd (hfn Fl.inf (List.mem_cons_self _ _)) (by simp [Fl.finOrNan])
    | ninf => exact absurd (hfn Fl.ninf (List.mem_cons_self _ _)) (by simp [Fl.finOrNan])

theorem dd_self_elems (l : List (Fl ℚ)) (hl : ∀ x ∈ l, Fl.finOrNan x) :
    ∀ y ∈ List.zipWith ddCell l l, y = Fl.nan ∨ y = Fl.fin 0 := by
  induction l with
  | nil => intro y hy; simp at hy
  | cons x xs ih =>
    intro y hy
    rw [List.zipWith_cons_cons] at hy
    have hxs : ∀ a ∈ xs, Fl.finOrNan a := fun a ha =>
      hl a (List.mem_cons_of_mem _ ha)
    rcases List.mem_cons.mp hy with hy | hy
    · subst hy
      cases x with
      | nan => exact Or.inl rfl
      | fin c =>
        by_cases hc : c = 0
        · subst hc
          refine Or.inl ?_
          rw [ddCell]
          have hsub : Fl.sub (Fl.fin (0 : ℚ)) (Fl.fin 0) = Fl.fin 0 := by
            show Fl.fin ((0 : ℚ) - 0) = Fl.fin 0
            norm_num
          rw [hsub]
          show (if (0 : ℚ) = 0 then (if (0 : ℚ) = 0 then Fl.nan
            else if 0 < (0 : ℚ) then Fl.inf else Fl.ninf)
            else Fl.fin ((0 : ℚ) / 0)) = Fl.nan
          norm_num
        · refine Or.inr ?_
          rw [ddCell]
          have hsub : Fl.sub (Fl.fin c) (Fl.fin c) = Fl.fin 0 := by
            show Fl.fin (c - c) = Fl.fin 0
            norm_num
          rw [hsub, Fl.div_fin_of_ne _ _ hc, zero_div]
      | inf => exact absurd (hl Fl.inf (List.mem_cons_self _ _)) (by simp [Fl.finOrNan])
      | ninf => exact absurd (hl Fl.ninf (List.mem_cons_self _ _)) (by simp [Fl.finOrNan])
    · exact ih hxs y hy

theorem minSkipnaGo_zero_acc (l : List (Fl ℚ))
    (hl : ∀ y ∈ l, y = Fl.nan ∨ y = Fl.fin 0) :
    minSkipnaGo (some (Fl.fin 0)) l = Fl.fin 0 := by
  induction l with
  | nil => rfl
  | cons x xs ih =>
    have hxs : ∀ y ∈ xs, y = Fl.nan ∨ y = Fl.fin 0 := fun a ha =>
      hl a (List.mem_cons_of_mem _ ha)
    rcases hl x (List.mem_cons_self _ _) with hx | hx
    · subst hx
      rw [minSkipnaGo_cons_nan]
      exact ih hxs
    · subst hx
      rw [minSkipnaGo_cons_fin_some]
      have hmin : Fl.minF (Fl.fin (0 : ℚ)) (Fl.fin 0) = Fl.fin 0 := by
        show Fl.fin (min (0 : ℚ) 0) = Fl.fin 0
        rw [min_self]
      rw [hmin]
      exact ih hxs

theorem minSkipna_all_zero (l : List (Fl ℚ))
    (hl : ∀ y ∈ l, y = Fl.nan ∨ y = Fl.fin 0) (h0 : Fl.fin 0 ∈ l) :
    minSkipna l = Fl.fin 0 := by
  rw [minSkipna]
  induction l with
  | nil => simp at h0
  | cons x xs ih =>
    have hxs : ∀ y ∈ xs, y = Fl.nan ∨ y = Fl.fin 0 := fun a ha =>
      hl a (List.mem_cons_of_mem _ ha)
    rcases hl x (List.mem_cons_self _ _) with hx | hx
    · subst hx
      rw [minSkipnaGo_cons_nan]
      have h0xs : Fl.fin 0 ∈ xs := by
        rcases List.mem_cons.mp h0 with h | h
        · exact absurd h (by simp)
        · exact h
      exact ih hxs h0xs
    · subst hx
      rw [minSkipnaGo_cons_fin_none]
      exact minSkipnaGo_zero_acc xs hxs

theorem marketReturn_length (closes : List ℚ) :
    (marketReturn closes).length = closes.length := by
  cases closes with
  | nil => rfl
  | cons c cs =>
    rw [marketReturn, List.length_cons, List.length_zipWith, List.length_cons]
    omega

theorem marketReturn_getElem?_zero (closes : List ℚ) (h0 : 0 < closes.length) :
    (marketReturn closes)[0]? = some Fl.nan := by
  cases closes with
  | nil => simp at h0
  | cons c cs =>
    rw [marketReturn]
    simp

theorem marketReturn_getElem?_succ (closes : List ℚ) (t : ℕ)
    (ht : t + 1 < closes.length) :
    ∃ prev cur : ℚ, closes[t]? = some prev ∧ closes[t + 1]? = some cur ∧
      (marketReturn closes)[t + 1]? =
        some (Fl.div (Fl.fin (cur - prev)) (Fl.fin prev)) := by
  cases closes with
  | nil => simp at ht
  | cons c cs =>
    have h1 : t < (c :: cs).length := by omega
    have h2 : t < cs.length := by
      rw [List.length_cons] at ht
      omega
    have hprev : (c :: cs)[t]? = some ((c :: cs).get ⟨t, h1⟩) :=
      List.getElem?_eq_getElem h1
    have hcur : cs[t]? = some (cs.get ⟨t, h2⟩) :=
      List.getElem?_eq_getElem h2
    refine ⟨(c :: cs).get ⟨t, h1⟩, cs.get ⟨t, h2⟩, hprev, ?_, ?_⟩
    · rw [List.getElem?_cons_succ]
      exact hcur
    · rw [marketReturn, List.getElem?_cons_succ]
      exact getElem?_zipWith _ _ _ t _ _ hprev hcur

theorem cumprodSkipna_fin {α : Type} [LinearOrderedField α] (l : List (Fl α))
    (hfn : ∀ x ∈ l, Fl.finOrNan x) (c : α) (i : ℕ) (b : α)
    (hi : l[i]? = some (Fl.fin b)) :
    ∃ y : α, (cumprodSkipna (Fl.fin c) l)[i]? = some (Fl.fin y) := by
  induction l generalizing c i with
  | nil => simp at hi
  | cons x xs ih =>
    cases i with
    | zero =>
      rw [List.getElem?_cons_zero, Option.some.injEq] at hi
      subst hi
      rw [cumprodSkipna_cons_fin, List.getElem?_cons_zero]
      exact ⟨c * b, rfl⟩
    | succ j =>
      rw [List.getElem?_cons_succ] at hi
      have hxs : ∀ x ∈ xs, Fl.finOrNan x := fun y hy =>
        hfn y (List.mem_cons_of_mem x hy)
      cases x with
      | fin v =>
        obtain ⟨y, hy⟩ := ih hxs (c * v) j hi
        refine ⟨y, ?_⟩
        rw [cumprodSkipna_cons_fin, List.getElem?_cons_succ]
        exact hy
      | nan =>
        obtain ⟨y, hy⟩ := ih hxs c j hi
        refine ⟨y, ?_⟩
        rw [cumprodSkipna_cons_nan, List.getElem?_cons_succ]
        exact hy
      | inf => exact absurd (hfn Fl.inf (List.mem_cons_self _ _)) (by simp [Fl.finOrNan])
      | ninf => exact absurd (hfn Fl.ninf (List.mem_cons_self _ _)) (by simp [Fl.finOrNan])

theorem countP_range_threshold (n k : ℕ) :
    (List.range n).countP (fun i => decide (k ≤ i + 1)) = n - (k - 1) := by
  induction n with
  | zero => simp
  | succ m ih =>
    rw [List.range_succ, List.countP_append, ih]
    by_cases h : k ≤ m + 1
    · have hd : decide (k ≤ m + 1) = true := decide_eq_true h
      simp only [List.countP_cons, List.countP_nil, hd, if_true]
      omega
    · have hd : decide (k ≤ m + 1) = false := decide_eq_false h
      simp [List.countP_cons, hd]
      omega

theorem strategyReturnList_length (closes : List ℚ) (s l : ℕ) :
    (strategyReturnList closes s l).length = closes.length := by
  rw [strategyReturnList, List.length_zipWith, marketReturn_length,
    positionList_length, min_self]

theorem strategyReturn_getElem?_succ (closes : List ℚ)
    (hpos : ∀ p ∈ closes, 0 < p) (s l : ℕ) (t : ℕ)
    (ht : t + 1 < closes.length) :
    ∃ r q : ℚ, (marketReturn closes)[t + 1]? = some (Fl.fin r) ∧
      (positionList closes s l)[t + 1]? = some (Fl.fin q) ∧
      (strategyReturnList closes s l)[t + 1]? = some (Fl.fin (r * q)) := by
  obtain ⟨prev, cur, hprev, hcur, hmr⟩ := marketReturn_getElem?_succ closes t ht
  have hprevpos : 0 < prev := hpos prev (List.getElem?_mem hprev)
  rw [Fl.div_fin_of_ne _ _ (ne_of_gt hprevpos)] at hmr
  obtain ⟨z, hz, hp⟩ := positionList_getElem?_succ closes s l t ht
  refine ⟨(cur - prev) / prev, Int.cast z, hmr, hp, ?_⟩
  rw [strategyReturnList]
  exact getElem?_zipWith _ _ _ (t + 1) _ _ hmr hp

theorem strategyReturn_finOrNan (closes : List ℚ)
    (hpos : ∀ p ∈ closes, 0 < p) (s l : ℕ) :
    ∀ x ∈ strategyReturnList closes s l, Fl.finOrNan x := by
  intro x hx
  obtain ⟨i, hi⟩ := List.mem_iff_getElem?.mp hx
  have hlen : i < closes.length := by
    have := (List.getElem?_eq_some_iff.mp hi).1
    rwa [strategyReturnList_length] at this
  cases i with
  | zero =>
    have h0 : (strategyReturnList closes s l)[0]? = some Fl.nan := by
      rw [strategyReturnList]
      exact getElem?_zipWith _ _ _ 0 _ _
        (marketReturn_getElem?_zero closes (by omega))
        (positionList_getElem?_zero closes s l (by omega))
    rw [h0, Option.some.injEq] at hi
    rw [← hi]
    trivial
  | succ j =>
    obtain ⟨r, q, -, -, hs⟩ :=
      strategyReturn_getElem?_succ closes hpos s l j hlen
    rw [hs, Option.some.injEq] at hi
    rw [← hi]
    trivial

/-! ### Claim theorems -/

/-- C1: an undefined position can never meet a defined market return (the
position is NaN only at index 0, where pct_change is NaN too), so the
claim's zero-exposure clause is vacuously satisfied; substantively, at
every index with a defined market return the strategy return is the finite
product market x position — never NaN — and the cumulative strategy product
is defined at every index past the first, so undefined positions never
propagate into the strategy returns or their compounding (lines 42-46 of
src/backtester.py). -/
theorem C1_undefined_position_never_propagates (closes : List ℚ)
    (hpos : ∀ p ∈ closes, 0 < p) (s l : ℕ) :
    (∀ t : ℕ, ∀ r : ℚ, (marketReturn closes)[t]? = some (Fl.fin r) →
      ∃ q : ℚ, (positionList closes s l)[t]? = some (Fl.fin q) ∧
        (strategyReturnList closes s l)[t]? = some (Fl.fin (r * q))) ∧
    (∀ t : ℕ, 0 < t → t < closes.length →
      ∃ c : ℚ, (cumStrategy closes s l)[t]? = some (Fl.fin c)) := by
  constructor
  · intro t r hr
    have hlen : t < closes.length := by
      have := (List.getElem?_eq_some_iff.mp hr).1
      rwa [marketReturn_length] at this
    cases t with
    | zero =>
      rw [marketReturn_getElem?_zero closes (by omega)] at hr
      exact absurd hr (by simp)
    | succ j =>
      obtain ⟨r', q, hr', hp, hs⟩ :=
        strategyReturn_getElem?_succ closes hpos s l j hlen
      rw [hr'] at hr
      simp only [Option.some.injEq, Fl.fin.injEq] at hr
      rw [hr] at hs
      exact ⟨q, hp, hs⟩
  · intro t ht0 htn
    obtain ⟨j, rfl⟩ : ∃ j, t = j + 1 := ⟨t - 1, by omega⟩
    obtain ⟨r, q, -, -, hs⟩ :=
      strategyReturn_getElem?_succ closes hpos s l j htn
    have hmap : ((strategyReturnList closes s l).map
        (Fl.add (Fl.fin 1)))[j + 1]? = some (Fl.fin (1 + r * q)) := by
      rw [List.getElem?_map, hs]
      rfl
    have hfn : ∀ x ∈ (strategyReturnList closes s l).map (Fl.add (Fl.fin 1)),
        Fl.finOrNan x := by
      intro x hx
      obtain ⟨y, hy, rfl⟩ := List.mem_map.mp hx
      have := strategyReturn_finOrNan closes hpos s l y hy
      cases y with
      | fin v => trivial
      | nan => trivial
      | inf => exact absurd this (by simp [Fl.finOrNan])
      | ninf => exact absurd this (by simp [Fl.finOrNan])
    exact cumprodSkipna_fin _ hfn 1 (j + 1) _ hmap

/-- Witness for C1 on a strictly rising positive series: at index 2 the
market return is defined, and the theorem yields a defined position and a
defined (finite) strategy return there. -/
theorem C1_undefined_position_never_propagates_witness :
    ∃ q : ℚ, (positionList [1, 2, 4, 8] 1 2)[2]? = some (Fl.fin q) ∧
      (strategyReturnList [1, 2, 4, 8] 1 2)[2]? = some (Fl.fin (1 * q)) :=
  (C1_undefined_position_never_propagates [1, 2, 4, 8]
    (by norm_num) 1 2).1 2 1
    (by norm_num [marketReturn, Fl.div, List.zipWith])

/-- C6: for every price series and window pair, the position at index 0 is
undefined (NaN), and for every index t > 0 the position at t exactly equals
the signal at t-1 — exact equality of the discrete values, by construction
of the one-period shift in line 37 of src/backtester.py. -/
theorem C6_position_is_lagged_signal (closes : List ℚ) (s l : ℕ)
    (h0 : 0 < closes.length) :
    (positionList closes s l)[0]? = some Fl.nan ∧
    ∀ t : ℕ, 0 < t → t < closes.length →
      ∃ z : ℤ, (signalList closes s l)[t - 1]? = some z ∧
        (positionList closes s l)[t]? = some (Fl.fin (Int.cast z : ℚ)) := by
  refine ⟨positionList_getElem?_zero closes s l h0, ?_⟩
  intro t ht0 htn
  obtain ⟨z, hz, hp⟩ :=
    positionList_getElem?_succ closes s l (t - 1) (by omega)
  have ht : t - 1 + 1 = t := by omega
  rw [ht] at hp
  exact ⟨z, hz, hp⟩

/-- Witness for C6 at a concrete four-point price series. -/
theorem C6_position_is_lagged_signal_witness :
    (positionList [1, 2, 4, 8] 1 2)[0]? = some Fl.nan :=
  (C6_position_is_lagged_signal [1, 2, 4, 8] 1 2 (by decide)).1

/-- C8: the moving-average series (pandas rolling mean, lines 26-27 of
src/backtester.py) has the same length as the price series; entry i is the
arithmetic mean of the trailing W prices (a genuine W-element slice) when
i ≥ W-1; entries 0..W-2 are NaN; and the number of defined entries is
len - W + 1 when len ≥ W and zero otherwise (a too-large window is not a
failure). -/
theorem C8_rolling_mean_contract (closes : List ℚ) (w : ℕ) (hw : 1 ≤ w) :
    (rollingMean w closes).length = closes.length ∧
    (∀ i : ℕ, i < closes.length → w ≤ i + 1 →
      ((closes.drop (i + 1 - w)).take w).length = w ∧
      (rollingMean w closes)[i]? =
        some (Fl.fin (((closes.drop (i + 1 - w)).take w).sum / (w : ℚ)))) ∧
    (∀ i : ℕ, i < closes.length → i + 1 < w →
      (rollingMean w closes)[i]? = some Fl.nan) ∧
    (rollingMean w closes).countP Fl.isFin =
      (if w ≤ closes.length then closes.length - w + 1 else 0) := by
  refine ⟨rollingMean_length w closes, ?_, ?_, ?_⟩
  · intro i hi hwi
    constructor
    · rw [List.length_take, List.length_drop]
      omega
    · rw [rollingMean_getElem? w closes i hi, if_pos hwi]
  · intro i hi hwi
    rw [rollingMean_getElem? w closes i hi, if_neg (by omega)]
  · rw [rollingMean, List.countP_map]
    have hcongr : (List.range closes.length).countP
        (Fl.isFin ∘ fun i =>
          if w ≤ i + 1
          then Fl.fin (((closes.drop (i + 1 - w)).take w).sum / (w : ℚ))
          else Fl.nan) =
        (List.range closes.length).countP (fun i => decide (w ≤ i + 1)) := by
      apply List.countP_congr
      intro i _
      by_cases h : w ≤ i + 1
      · simp [h, Fl.isFin]
      · simp [h, Fl.isFin]
    rw [hcongr, countP_range_threshold]
    split_ifs with h
    · omega
    · omega

/-- Witness for C8: window 2 over three prices has exactly two defined
entries, entry 0 is NaN, entry 1 is the mean of the first two prices. -/
theorem C8_rolling_mean_contract_witness :
    (rollingMean 2 [2, 4, 8]).countP Fl.isFin = 2 :=
  (C8_rolling_mean_contract [2, 4, 8] 2 (by decide)).2.2.2.trans (by decide)

/-- C7: at every index the signal (lines 32-34 of src/backtester.py) is +1
iff both moving averages are defined and the short strictly exceeds the
long, -1 iff both are defined and the short is strictly below the long, and
0 iff both are defined and exactly equal or either is undefined; no other
value occurs.  (Comparisons against NaN are false, so the 0 default
survives wherever a moving average is undefined.) -/
theorem C7_signal_characterization (closes : List ℚ) (s l : ℕ) (t : ℕ)
    (ht : t < closes.length) :
    ∃ sig : ℤ, (signalList closes s l)[t]? = some sig ∧
      (sig = 1 ∨ sig = -1 ∨ sig = 0) ∧
      (sig = 1 ↔ ∃ a b : ℚ, (rollingMean s closes)[t]? = some (Fl.fin a) ∧
        (rollingMean l closes)[t]? = some (Fl.fin b) ∧ b < a) ∧
      (sig = -1 ↔ ∃ a b : ℚ, (rollingMean s closes)[t]? = some (Fl.fin a) ∧
        (rollingMean l closes)[t]? = some (Fl.fin b) ∧ a < b) ∧
      (sig = 0 ↔ (∃ a : ℚ, (rollingMean s closes)[t]? = some (Fl.fin a) ∧
          (rollingMean l closes)[t]? = some (Fl.fin a)) ∨
        (rollingMean s closes)[t]? = some Fl.nan ∨
        (rollingMean l closes)[t]? = some Fl.nan) := by
  have hs := rollingMean_getElem? s closes t ht
  have hl := rollingMean_getElem? l closes t ht
  by_cases hcs : s ≤ t + 1 <;> by_cases hcl : l ≤ t + 1
  · rw [if_pos hcs] at hs
    rw [if_pos hcl] at hl
    set a := ((closes.drop (t + 1 - s)).take s).sum / (s : ℚ) with ha
    set b := ((closes.drop (t + 1 - l)).take l).sum / (l : ℚ) with hb
    have hz : (signalList closes s l)[t]? =
        some (signalCell (Fl.fin a) (Fl.fin b)) :=
      getElem?_zipWith signalCell _ _ t _ _ hs hl
    rcases lt_trichotomy a b with hab | hab | hab
    · refine ⟨-1, ?_, by norm_num, ?_, ?_, ?_⟩
      · rw [hz, signalCell, Fl.ltb, Fl.ltb]
        rw [decide_eq_false (not_lt.mpr hab.le), decide_eq_true hab]
        simp
      · constructor
        · intro h; norm_num at h
        · rintro ⟨x, y, hx, hy, hxy⟩
          rw [hs] at hx; rw [hl] at hy
          simp only [Option.some.injEq, Fl.fin.injEq] at hx hy
          subst hx; subst hy
          exact absurd hab (not_lt.mpr hxy.le)
      · exact ⟨fun _ => ⟨a, b, hs, hl, hab⟩, fun _ => rfl⟩
      · constructor
        · intro h; norm_num at h
        · rintro (⟨x, hx, hy⟩ | hx | hy)
          · rw [hs] at hx; rw [hl] at hy
            simp only [Option.some.injEq, Fl.fin.injEq] at hx hy
            rw [hx, hy] at hab
            exact absurd hab (lt_irrefl x)
          · rw [hs] at hx; exact absurd hx (by simp)
          · rw [hl] at hy; exact absurd hy (by simp)
    · refine ⟨0, ?_, by norm_num, ?_, ?_, ?_⟩
      · rw [hz, signalCell, Fl.ltb, Fl.ltb, hab]
        rw [decide_eq_false (lt_irrefl b)]
        simp
      · constructor
        · intro h; norm_num at h
        · rintro ⟨x, y, hx, hy, hxy⟩
          rw [hs] at hx; rw [hl] at hy
          simp only [Option.some.injEq, Fl.fin.injEq] at hx hy
          subst hx; subst hy
          rw [hab] at hxy
          exact absurd hxy (lt_irrefl _)
      · constructor
        · intro h; norm_num at h
        · rintro ⟨x, y, hx, hy, hxy⟩
          rw [hs] at hx; rw [hl] at hy
          simp only [Option.some.injEq, Fl.fin.injEq] at hx hy
          subst hx; subst hy
          rw [hab] at hxy
          exact absurd hxy (lt_irrefl _)
      · exact ⟨fun _ => Or.inl ⟨a, hs, by rw [hl, hab]⟩, fun _ => rfl⟩
    · refine ⟨1, ?_, by norm_num, ?_, ?_, ?_⟩
      · rw [hz, signalCell, Fl.ltb]
        rw [decide_eq_true hab]
        simp
      · exact ⟨fun _ => ⟨a, b, hs, hl, hab⟩, fun _ => rfl⟩
      · constructor
        · intro h; norm_num at h
        · rintro ⟨x, y, hx, hy, hxy⟩
          rw [hs] at hx; rw [hl] at hy
          simp only [Option.some.injEq, Fl.fin.injEq] at hx hy
          subst hx; subst hy
          exact absurd hab (not_lt.mpr hxy.le)
      · constructor
        · intro h; norm_num at h
        · rintro (⟨x, hx, hy⟩ | hx | hy)
          · rw [hs] at hx; rw [hl] at hy
            simp only [Option.some.injEq, Fl.fin.injEq] at hx hy
            rw [hx, hy] at hab
            exact absurd hab (lt_irrefl x)
          · rw [hs] at hx; exact absurd hx (by simp)
          · rw [hl] at hy; exact absurd hy (by simp)
  · rw [if_pos hcs] at hs
    rw [if_neg hcl] at hl
    have hz : (signalList closes s l)[t]? =
        some (signalCell (Fl.fin _) Fl.nan) :=
      getElem?_zipWith signalCell _ _ t _ _ hs hl
    refine ⟨0, by rw [hz]; rfl, by norm_num, ?_, ?_, ?_⟩
    · constructor
      · intro h; norm_num at h
      · rintro ⟨x, y, hx, hy, hxy⟩
        rw [hl] at hy; exact absurd hy (by simp)
    · constructor
      · intro h; norm_num at h
      · rintro ⟨x, y, hx, hy, hxy⟩
        rw [hl] at hy; exact absurd hy (by simp)
    · exact ⟨fun _ => Or.inr (Or.inr hl), fun _ => rfl⟩
  · rw [if_neg hcs] at hs
    rw [if_pos hcl] at hl
    have hz : (signalList closes s l)[t]? =
        some (signalCell Fl.nan (Fl.fin _)) :=
      getElem?_zipWith signalCell _ _ t _ _ hs hl
    refine ⟨0, by rw [hz]; rfl, by norm_num, ?_, ?_, ?_⟩
    · constructor
      · intro h; norm_num at h
      · rintro ⟨x, y, hx, hy, hxy⟩
        rw [hs] at hx; exact absurd hx (by simp)
    · constructor
      · intro h; norm_num at h
      · rintro ⟨x, y, hx, hy, hxy⟩
        rw [hs] at hx; exact absurd hx (by simp)
    · exact ⟨fun _ => Or.inr (Or.inl hs), fun _ => rfl⟩
  · rw [if_neg hcs] at hs
    rw [if_neg hcl] at hl
    have hz : (signalList closes s l)[t]? =
        some (signalCell Fl.nan Fl.nan) :=
      getElem?_zipWith signalCell _ _ t _ _ hs hl
    refine ⟨0, by rw [hz]; rfl, by norm_num, ?_, ?_, ?_⟩
    · constructor
      · intro h; norm_num at h
      · rintro ⟨x, y, hx, hy, hxy⟩
        rw [hs] at hx; exact absurd hx (by simp)
    · constructor
      · intro h; norm_num at h
      · rintro ⟨x, y, hx, hy, hxy⟩
        rw [hs] at hx; exact absurd hx (by simp)
    · exact ⟨fun _ => Or.inr (Or.inl hs), fun _ => rfl⟩

/-- Witness for C7 at index 1 of a strictly rising series with windows 1
and 2: the existence statement is realized with signal +1. -/
theorem C7_signal_characterization_witness :
    ∃ sig : ℤ, (signalList [1, 2, 4, 8] 1 2)[1]? = some sig ∧
      (sig = 1 ∨ sig = -1 ∨ sig = 0) :=
  match C7_signal_characterization [1, 2, 4, 8] 1 2 1 (by norm_num) with
  | ⟨sig, h1, h2, _⟩ => ⟨sig, h1, h2⟩

/-- C9 counterexample: for the one-element return series [-1] (a -100%
return, which positive prices cannot produce for the market but the
strategy can), the compounded series inside max_drawdown is [0] — trivially
monotonically non-decreasing — yet max_drawdown returns NaN (float 0/0 at
the zero peak), which is not ≤ 0 under float comparison and is not 0.  So
neither the "always ≤ 0" part nor the "exactly 0 on a non-decreasing
compounded series" part of the claim holds for every return series. -/
theorem C9_counterexample :
    mddCumulative [Fl.fin (-1 : ℚ)] = [Fl.fin 0] ∧
    maxDrawdown [Fl.fin (-1 : ℚ)] = Fl.nan ∧
    Fl.leb (maxDrawdown [Fl.fin (-1 : ℚ)]) (Fl.fin 0) = false := by
  have hcum : mddCumulative [Fl.fin (-1 : ℚ)] = [Fl.fin 0] := by
    rw [mddCumulative]
    have hadd : Fl.add (Fl.fin (1 : ℚ)) (Fl.fin (-1)) = Fl.fin 0 := by
      show Fl.fin ((1 : ℚ) + (-1)) = Fl.fin 0
      norm_num
    rw [List.map_cons, List.map_nil, hadd, cumprodSkipna_cons_fin,
      cumprodSkipna_nil]
    have hmul : Fl.mul (Fl.fin (1 : ℚ)) (Fl.fin 0) = Fl.fin 0 := by
      show Fl.fin ((1 : ℚ) * 0) = Fl.fin 0
      norm_num
    rw [hmul]
  have hdd : mddDrawdown [Fl.fin (-1 : ℚ)] = [Fl.nan] := by
    rw [mddDrawdown, mddPeak, hcum, cummaxSkipna_cons_fin_none,
      cummaxSkipna_nil, List.zipWith_cons_cons, List.zipWith_nil_right]
    have : ddCell (Fl.fin (0 : ℚ)) (Fl.fin 0) = Fl.nan := by
      rw [ddCell]
      have hsub : Fl.sub (Fl.fin (0 : ℚ)) (Fl.fin 0) = Fl.fin 0 := by
        show Fl.fin ((0 : ℚ) - 0) = Fl.fin 0
        norm_num
      rw [hsub]
      show (if (0 : ℚ) = 0 then (if (0 : ℚ) = 0 then Fl.nan
        else if 0 < (0 : ℚ) then Fl.inf else Fl.ninf)
        else Fl.fin ((0 : ℚ) / 0)) = Fl.nan
      norm_num
    rw [this]
  have hmdd : maxDrawdown [Fl.fin (-1 : ℚ)] = Fl.nan := by
    rw [maxDrawdown, hdd, minSkipna, minSkipnaGo_cons_nan, minSkipnaGo_nil_none]
  exact ⟨hcum, hmdd, by rw [hmdd]; rfl⟩

/-- C9 (amended): over return series of finite-or-NaN values, whenever
max_drawdown returns a number it is ≤ 0; and it returns exactly 0 whenever
the compounded series is monotonically non-decreasing and contains a
nonzero value — the amendment excludes the degenerate series (empty,
all-NaN, or compounding to exactly zero via a -100% return) on which the
result is NaN rather than a number. -/
theorem C9_amended_max_drawdown (series : List (Fl ℚ))
    (hfn : ∀ x ∈ series, Fl.finOrNan x) :
    (∀ v : ℚ, maxDrawdown series = Fl.fin v → v ≤ 0) ∧
    (List.Pairwise (fun x y => ∀ a b : ℚ, x = Fl.fin a → y = Fl.fin b → a ≤ b)
        (mddCumulative series) →
      (∃ a : ℚ, a ≠ 0 ∧ Fl.fin a ∈ mddCumulative series) →
      maxDrawdown series = Fl.fin 0) := by
  have humap : ∀ x ∈ series.map (Fl.add (Fl.fin 1)), Fl.finOrNan x := by
    intro x hx
    obtain ⟨y, hy, rfl⟩ := List.mem_map.mp hx
    exact add_one_finOrNan y (hfn y hy)
  have hcumfn : ∀ x ∈ mddCumulative series, Fl.finOrNan x := by
    rw [mddCumulative]
    exact cumprodSkipna_finOrNan _ humap 1
  constructor
  · intro v hv
    rw [maxDrawdown] at hv
    obtain ⟨hmem, hbound⟩ := minSkipna_fin_spec _ v hv
    have h0 : Fl.fin 0 ∈ mddDrawdown series := by
      rw [mddDrawdown, mddPeak, mddCumulative] at hmem ⊢
      exact dd_first_fin_zero _ humap ⟨v, hmem⟩
    exact hbound 0 h0
  · intro hmono hex
    have hpeak : mddPeak series = mddCumulative series := by
      rw [mddPeak]
      exact cummax_monotone_eq _ hcumfn hmono none (Or.inl rfl)
    have hdd : mddDrawdown series =
        List.zipWith ddCell (mddCumulative series) (mddCumulative series) := by
      rw [mddDrawdown, hpeak]
    obtain ⟨a, ha0, hamem⟩ := hex
    obtain ⟨i, hi⟩ := List.mem_iff_getElem?.mp hamem
    have hddi : (List.zipWith ddCell (mddCumulative series)
        (mddCumulative series))[i]? = some (ddCell (Fl.fin a) (Fl.fin a)) :=
      getElem?_zipWith _ _ _ i _ _ hi hi
    have hdd0 : ddCell (Fl.fin a) (Fl.fin a) = Fl.fin 0 := by
      rw [ddCell]
      have hsub : Fl.sub (Fl.fin a) (Fl.fin a) = Fl.fin 0 := by
        show Fl.fin (a - a) = Fl.fin 0
        norm_num
      rw [hsub, Fl.div_fin_of_ne _ _ ha0, zero_div]
    rw [maxDrawdown, hdd]
    apply minSkipna_all_zero _ (dd_self_elems _ hcumfn)
    rw [← hdd0]
    exact List.getElem?_mem hddi

/-- Witness for the amended C9 on the one-element return series [1]: the
compounded series is [2], non-decreasing with a nonzero entry, and the
max drawdown is exactly 0. -/
theorem C9_amended_max_drawdown_witness :
    maxDrawdown [Fl.fin (1 : ℚ)] = Fl.fin 0 := by
  have hcum : mddCumulative [Fl.fin (1 : ℚ)] = [Fl.fin 2] := by
    rw [mddCumulative]
    have hadd : Fl.add (Fl.fin (1 : ℚ)) (Fl.fin 1) = Fl.fin 2 := by
      show Fl.fin ((1 : ℚ) + 1) = Fl.fin 2
      norm_num
    rw [List.map_cons, List.map_nil, hadd, cumprodSkipna_cons_fin,
      cumprodSkipna_nil]
    have hmul : Fl.mul (Fl.fin (1 : ℚ)) (Fl.fin 2) = Fl.fin 2 := by
      show Fl.fin ((1 : ℚ) * 2) = Fl.fin 2
      norm_num
    rw [hmul]
  apply (C9_amended_max_drawdown [Fl.fin (1 : ℚ)] (by
    intro x hx
    rw [List.mem_singleton] at hx
    subst hx
    trivial)).2
  · rw [hcum]
    exact List.pairwise_singleton _ _
  · refine ⟨2, by norm_num, ?_⟩
    rw [hcum]
    exact List.mem_singleton_self _

/-- C10: no row index is selected both as a buy event (position becomes +1)
and as a sell event (position becomes -1): the masks on lines 51-52 of
src/backtester.py require the position to equal +1 and -1 at once. -/
theorem C10_buy_sell_disjoint (closes : List ℚ) (s l : ℕ) (t : ℕ)
    (hb : t ∈ buyIndices (positionList closes s l)) :
    t ∉ sellIndices (positionList closes s l) := by
  intro hs
  rw [buyIndices, List.mem_filter] at hb
  rw [sellIndices, List.mem_filter] at hs
  have hb1 : (positionList closes s l).getD t Fl.nan = Fl.fin 1 := by
    have := hb.2
    rw [buyMask, Bool.and_eq_true, beq_iff_eq] at this
    exact this.1
  have hs1 : (positionList closes s l).getD t Fl.nan = Fl.fin (-1) := by
    have := hs.2
    rw [sellMask, Bool.and_eq_true, beq_iff_eq] at this
    exact this.1
  rw [hb1] at hs1
  have : (1 : ℚ) = -1 := by injection hs1
  norm_num at this

/-- Witness for C10: index 2 of the rising series is a buy event, hence not
a sell event. -/
theorem C10_buy_sell_disjoint_witness :
    2 ∉ sellIndices (positionList [1, 2, 4, 8] 1 2) :=
  C10_buy_sell_disjoint [1, 2, 4, 8] 1 2 2 (by
    norm_num [buyIndices, positionList, positionOf, signalList, rollingMean,
      signalCell, Fl.ltb, buyMask, prevPosition, List.range_succ,
      List.filter]
    decide)

/-- C3 counterexample: a series whose timestamps strictly decrease (5 then
3) is processed to completion and the run returns normally — no input
validation of timestamps or prices exists anywhere in run_backtest, so the
claimed InputContractViolation abort never happens. -/
theorem C3_counterexample :
    (runBacktest [5, 3] [100, 110] 20 50).toOption.isSome = true := by
  rw [runBacktest]
  rw [if_neg (by simp)]
  rw [if_neg (by decide)]
  rfl

/-- C3 (amended): run_backtest performs no input validation at all; the run
aborts (with an uncaught IndexError or ZeroDivisionError) exactly when the
series is empty or its first and last timestamps coincide, and otherwise
completes regardless of timestamp order or price signs. -/
theorem C3_amended_no_input_validation (ts : List ℤ) (closes : List ℚ)
    (s l : ℕ) :
    runBacktest ts closes s l = Except.error () ↔
      (ts = [] ∨ daysOf ts = 0) := by
  rw [runBacktest]
  by_cases he : ts.isEmpty
  · rw [if_pos he]
    simp only [List.isEmpty_iff] at he
    simp [he]
  · rw [if_neg he]
    simp only [List.isEmpty_iff] at he
    by_cases hd : daysOf ts = 0
    · rw [if_pos hd]
      simp [he, hd]
    · rw [if_neg hd]
      simp [he, hd]

/-- Witness for the amended C3: a single-timestamp run aborts (days = 0). -/
theorem C3_amended_no_input_validation_witness :
    runBacktest [4] [100] 20 50 = Except.error () :=
  (C3_amended_no_input_validation [4] [100] 20 50).mpr (Or.inr (by decide))

/-- C5 counterexample: on a series whose first and last timestamps coincide
(a single row), run_backtest crashes with an uncaught ZeroDivisionError at
365.0/days — modelled as the error outcome — instead of reporting an
explicitly undefined CAGR. -/
theorem C5_counterexample :
    runBacktest [0] [100] 20 50 = Except.error () := by
  rw [runBacktest]
  rw [if_neg (by simp)]
  rw [if_pos (by decide)]

/-- C5 (amended): when the day span D is zero the whole run aborts with a
ZeroDivisionError (no metrics are produced at all) rather than reporting an
undefined CAGR; when D is nonzero the run completes and each CAGR is
exactly cumulative_final ** (365/D) - 1 in float arithmetic. -/
theorem C5_amended_cagr (ts : List ℤ) (closes : List ℚ) (s l : ℕ) :
    (daysOf ts = 0 → runBacktest ts closes s l = Except.error ()) ∧
    (daysOf ts ≠ 0 →
      (computeMetrics ts closes s l).cagrMarket =
        Fl.sub (rpowF (flToR ((cumMarket closes).getLastD Fl.nan))
          ((365 : ℝ) / ((daysOf ts : ℤ) : ℝ))) (Fl.fin 1) ∧
      (computeMetrics ts closes s l).cagrStrategy =
        Fl.sub (rpowF (flToR ((cumStrategy closes s l).getLastD Fl.nan))
          ((365 : ℝ) / ((daysOf ts : ℤ) : ℝ))) (Fl.fin 1) ∧
      (runBacktest ts closes s l).toOption.isSome = true) := by
  constructor
  · intro h0
    rw [runBacktest]
    by_cases he : ts.isEmpty
    · rw [if_pos he]
    · rw [if_neg he, if_pos h0]
  · intro hd
    have hne : ¬ts.isEmpty := by
      intro he
      rw [List.isEmpty_iff] at he
      rw [he] at hd
      exact hd rfl
    refine ⟨by simp [computeMetrics, cagrOf], by simp [computeMetrics, cagrOf], ?_⟩
    rw [runBacktest, if_neg hne, if_neg hd]
    rfl

/-- Witness for the amended C5: two equal timestamps give a zero day span
and the run aborts. -/
theorem C5_amended_cagr_witness :
    runBacktest [7, 7] [100, 100] 20 50 = Except.error () :=
  (C5_amended_cagr [7, 7] [100, 100] 20 50).1 (by decide)

theorem flat3_marketReturn (a : ℚ) (ha : a ≠ 0) :
    marketReturn [a, a, a] = [Fl.nan, Fl.fin 0, Fl.fin 0] := by
  rw [marketReturn]
  rw [List.zipWith_cons_cons, List.zipWith_cons_cons, List.zipWith_nil_right]
  have h : Fl.div (Fl.fin (a - a)) (Fl.fin a) = Fl.fin 0 := by
    rw [show a - a = (0 : ℚ) by norm_num, Fl.div_fin_of_ne 0 a ha, zero_div]
  rw [h]

theorem flat3_var (a : ℚ) (ha : a ≠ 0) :
    sampleVar (marketReturn [a, a, a]) = Fl.fin 0 := by
  rw [flat3_marketReturn a ha, sampleVar]
  rw [if_neg (by simp)]
  have hfv : finVals [Fl.nan, Fl.fin (0 : ℚ), Fl.fin 0] = [0, 0] := rfl
  rw [hfv]
  rw [if_neg (by norm_num)]
  rw [Fl.fin.injEq]
  norm_num

theorem flat3_vol (a : ℚ) (ha : a ≠ 0) :
    volOf (marketReturn [a, a, a]) = Fl.fin 0 := by
  rw [volOf, flat3_var a ha, flSqrt]
  rw [if_neg (by norm_num)]
  have h0 : Real.sqrt ((0 : ℚ) : ℝ) = 0 := by
    rw [Rat.cast_zero, Real.sqrt_zero]
  rw [h0]
  show Fl.fin ((0 : ℝ) * Real.sqrt 252) = Fl.fin 0
  rw [zero_mul]

theorem flat3_cumlast (a : ℚ) (ha : a ≠ 0) :
    (cumMarket [a, a, a]).getLastD Fl.nan = Fl.fin 1 := by
  rw [cumMarket, flat3_marketReturn a ha]
  have h2 : Fl.add (Fl.fin (1 : ℚ)) Fl.nan = Fl.nan := rfl
  have h1 : Fl.add (Fl.fin (1 : ℚ)) (Fl.fin 0) = Fl.fin 1 := by
    show Fl.fin ((1 : ℚ) + 0) = Fl.fin 1
    norm_num
  have h3 : Fl.mul (Fl.fin (1 : ℚ)) (Fl.fin 1) = Fl.fin 1 := by
    show Fl.fin ((1 : ℚ) * 1) = Fl.fin 1
    norm_num
  rw [List.map_cons, List.map_cons, List.map_cons, List.map_nil, h2, h1]
  rw [cumprodSkipna_cons_nan, cumprodSkipna_cons_fin, h3,
    cumprodSkipna_cons_fin, h3, cumprodSkipna_nil]
  rfl

theorem flat3_cagr (a : ℚ) (ha : a ≠ 0) :
    cagrOf ((cumMarket [a, a, a]).getLastD Fl.nan) (daysOf [0, 1, 2]) =
      Fl.fin 0 := by
  rw [flat3_cumlast a ha, cagrOf]
  have h1 : flToR (Fl.fin 1) = Fl.fin (1 : ℝ) := by
    rw [flToR, Rat.cast_one]
  rw [h1, rpowF]
  rw [if_neg (by norm_num)]
  rw [if_neg (by norm_num)]
  rw [Real.one_rpow]
  show Fl.fin ((1 : ℝ) - 1) = Fl.fin 0
  norm_num

theorem flat3_sharpe_nan (a : ℚ) (ha : a ≠ 0) :
    (computeMetrics [0, 1, 2] [a, a, a] 20 50).sharpeMarket = Fl.nan := by
  have hs : (computeMetrics [0, 1, 2] [a, a, a] 20 50).sharpeMarket =
      Fl.div
        (cagrOf ((cumMarket [a, a, a]).getLastD Fl.nan) (daysOf [0, 1, 2]))
        (volOf (marketReturn [a, a, a])) := rfl
  rw [hs, flat3_cagr a ha, flat3_vol a ha, Fl.div]
  rw [if_pos rfl, if_pos rfl]

/-- C4 counterexample: on the flat three-day series at price 100 the
annualized volatility is exactly 0 and the CAGR is exactly 0, and the
computed Sharpe ratio is the float 0/0 — NaN — which run_backtest prints
(formatted as a two-decimal number) rather than surfacing an explicit
"undefined metric" outcome. -/
theorem C4_counterexample :
    (computeMetrics [0, 1, 2] [100, 100, 100] 20 50).sharpeMarket = Fl.nan ∧
    (runBacktest [0, 1, 2] [100, 100, 100] 20 50).map
      (fun o => o.printedMetrics[2]?) = Except.ok (some (Fmt.dec Fl.nan)) := by
  have hn := flat3_sharpe_nan 100 (by norm_num)
  refine ⟨hn, ?_⟩
  rw [runBacktest]
  rw [if_neg (by simp)]
  rw [if_neg (by decide)]
  rw [Except.map]
  show Except.ok (some (Fmt.dec
    (computeMetrics [0, 1, 2] [100, 100, 100] 20 50).sharpeMarket)) =
    Except.ok (some (Fmt.dec Fl.nan))
  rw [hn]

/-- C4 (amended): the Sharpe ratio is computed as CAGR / volatility in
float arithmetic with no zero or undefined check: when volatility is NaN
the Sharpe is NaN; when volatility is exactly 0 the Sharpe is NaN, +inf or
-inf according to the sign of the CAGR; otherwise it is exactly
CAGR / volatility.  The non-finite results flow into the report unmarked —
no explicit "undefined metric" outcome exists. -/
theorem C4_amended_sharpe (ts : List ℤ) (closes : List ℚ) (s l : ℕ) :
    ((computeMetrics ts closes s l).sharpeMarket =
      Fl.div (computeMetrics ts closes s l).cagrMarket
        (computeMetrics ts closes s l).volMarket) ∧
    ((computeMetrics ts closes s l).sharpeStrategy =
      Fl.div (computeMetrics ts closes s l).cagrStrategy
        (computeMetrics ts closes s l).volStrategy) ∧
    ((computeMetrics ts closes s l).volMarket = Fl.nan →
      (computeMetrics ts closes s l).sharpeMarket = Fl.nan) ∧
    (∀ c : ℝ, (computeMetrics ts closes s l).cagrMarket = Fl.fin c →
      (computeMetrics ts closes s l).volMarket = Fl.fin 0 →
      (computeMetrics ts closes s l).sharpeMarket =
        (if c = 0 then Fl.nan else if 0 < c then Fl.inf else Fl.ninf)) ∧
    (∀ c v : ℝ, (computeMetrics ts closes s l).cagrMarket = Fl.fin c →
      (computeMetrics ts closes s l).volMarket = Fl.fin v → v ≠ 0 →
      (computeMetrics ts closes s l).sharpeMarket = Fl.fin (c / v)) := by
  have hsm : (computeMetrics ts closes s l).sharpeMarket =
      Fl.div (computeMetrics ts closes s l).cagrMarket
        (computeMetrics ts closes s l).volMarket := rfl
  have hss : (computeMetrics ts closes s l).sharpeStrategy =
      Fl.div (computeMetrics ts closes s l).cagrStrategy
        (computeMetrics ts closes s l).volStrategy := rfl
  refine ⟨hsm, hss, ?_, ?_, ?_⟩
  · intro hv
    rw [hsm, hv]
    cases (computeMetrics ts closes s l).cagrMarket <;> rfl
  · intro c hc hv
    rw [hsm, hc, hv, Fl.div, if_pos rfl]
  · intro c v hc hv hv0
    rw [hsm, hc, hv, Fl.div, if_neg hv0]

/-- Witness for the amended C4 on a flat series at price 50: volatility is
0 and CAGR is 0, and the theorem yields Sharpe = NaN there. -/
theorem C4_amended_sharpe_witness :
    (computeMetrics [0, 1, 2] [50, 50, 50] 20 50).sharpeMarket = Fl.nan := by
  have hcagr : (computeMetrics [0, 1, 2] [50, 50, 50] 20 50).cagrMarket =
      Fl.fin 0 := flat3_cagr 50 (by norm_num)
  have hvol : (computeMetrics [0, 1, 2] [50, 50, 50] 20 50).volMarket =
      Fl.fin 0 := flat3_vol 50 (by norm_num)
  have h := (C4_amended_sharpe [0, 1, 2] [50, 50, 50] 20 50).2.2.2.1 0
    hcagr hvol
  rw [h, if_pos rfl]

/-- C2 counterexample: run_backtest has no return statement — the call
completes and delivers None to the caller, not a record of series, metrics
and events. -/
theorem C2_counterexample :
    (runBacktest [0, 1, 2] [100, 100, 100] 20 50).map RunOutput.returned =
      Except.ok none := by
  rw [runBacktest]
  rw [if_neg (by simp)]
  rw [if_neg (by decide)]
  rfl

/-- C2 (amended): on every run that does not crash, run_backtest returns
None (no record at all); the metrics are delivered only by printing
pre-formatted strings — two-decimal percentages for the CAGRs and
drawdowns, two-decimal fixed-point for the Sharpe ratios — to the console
(lines 86-93), and by drawing the chart. -/
theorem C2_amended_returns_none (ts : List ℤ) (closes : List ℚ) (s l : ℕ)
    (hne : ts ≠ []) (hd : daysOf ts ≠ 0) :
    runBacktest ts closes s l = Except.ok
      { returned := none
        printedMetrics :=
          [Fmt.pct (computeMetrics ts closes s l).cagrMarket,
           Fmt.pct (computeMetrics ts closes s l).cagrStrategy,
           Fmt.dec (computeMetrics ts closes s l).sharpeMarket,
           Fmt.dec (computeMetrics ts closes s l).sharpeStrategy,
           Fmt.pct (flToR (computeMetrics ts closes s l).maxDDMarket),
           Fmt.pct (flToR (computeMetrics ts closes s l).maxDDStrategy)] } := by
  rw [runBacktest]
  rw [if_neg (by simp [hne])]
  rw [if_neg hd]

/-- Witness for the amended C2 at a concrete three-row series. -/
theorem C2_amended_returns_none_witness :
    runBacktest [0, 1, 2] [50, 50, 50] 20 50 = Except.ok
      { returned := none
        printedMetrics :=
          [Fmt.pct (computeMetrics [0, 1, 2] [50, 50, 50] 20 50).cagrMarket,
           Fmt.pct (computeMetrics [0, 1, 2] [50, 50, 50] 20 50).cagrStrategy,
           Fmt.dec (computeMetrics [0, 1, 2] [50, 50, 50] 20 50).sharpeMarket,
           Fmt.dec (computeMetrics [0, 1, 2] [50, 50, 50] 20 50).sharpeStrategy,
           Fmt.pct (flToR (computeMetrics [0, 1, 2] [50, 50, 50] 20 50).maxDDMarket),
           Fmt.pct (flToR (computeMetrics [0, 1, 2] [50, 50, 50] 20 50).maxDDStrategy)] } :=
  C2_amended_returns_none [0, 1, 2] [50, 50, 50] 20 50 (by simp) (by decide)

end Backtest
